import Mathlib

/-!
# dns-logger: normalisation cache and batch accumulator

A shallow embedding of `src/dns-logger.go` (and of its test harness
`src/testing/gorm_sqlite.go`, which repeats the same two functions with smaller
settings).

* `normaliseDomain` is embedded with the LRU cache passed explicitly: the Go
  global `lruCache` becomes an argument and the cache after the call is returned
  next to the result.
* `batchQueries` is embedded as a step function `batchStep` (one iteration of
  the `for query := range queries` loop) and its iteration over the finite
  sequence of events received before the channel is closed.

Strings are lists of characters (`Str`); the raw domain is taken to be valid
UTF-8, so that byte positions of `'.'` and rune positions agree.

The imported packages (`golang.org/x/net/publicsuffix`, `strings`,
`github.com/hashicorp/golang-lru/v2`, `time`, `gorm`) are not part of the
repository; what the program needs of them is modelled in the first section.
-/

namespace DnsLogger

/-- A Go string, as the list of its runes. -/
abbrev Str := List Char

/-! ## Imported collaborators -/

/-- The three kinds of rule of a public suffix list: `co.uk`, `*.ck`, `!www.ck`. -/
inductive RuleKind where
  | normal
  | wildcard
  | exception
  deriving DecidableEq, Repr

/-- One rule of the public suffix list. `labels` are the labels of the rule read
left to right, without the leading `*.` of a wildcard rule and without the
leading `!` of an exception rule. -/
structure Rule where
  kind : RuleKind
  labels : List Str
  deriving DecidableEq, Repr

/-- What the program imports and does not define: the public suffix list compiled
into `golang.org/x/net/publicsuffix`, and `unicode.ToLower`, the rune map that
`strings.ToLower` applies to every rune. -/
structure Lib where
  rules : List Rule
  toLowerRune : Char → Char

/-- Labels of a domain name: the pieces between the `'.'` separators. -/
def splitLabels (domain : Str) : List Str :=
  domain.splitOn '.'

/-- Inverse of `splitLabels`: the labels joined by `'.'`. -/
def joinLabels (labels : List Str) : Str :=
  List.intercalate ['.'] labels

/-- Modelled from the spec: whether a public-suffix rule matches a name (given by
its labels). A rule matches when its labels are the rightmost labels of the name,
compared label by label as they are written; a wildcard rule needs one more label
to its left. The matching code of `golang.org/x/net/publicsuffix` is not under
`src/`. -/
def Rule.matchesLabels (r : Rule) (labels : List Str) : Bool :=
  match r.kind with
  | RuleKind.wildcard => r.labels.isSuffixOf labels && decide (r.labels.length < labels.length)
  | _ => r.labels.isSuffixOf labels

/-- Modelled from the spec: the number of labels of the public suffix that a
matching rule yields: the rule itself, one label more for a wildcard rule, one
label less for an exception rule. -/
def Rule.suffixLabels (r : Rule) : Nat :=
  match r.kind with
  | RuleKind.normal => r.labels.length
  | RuleKind.wildcard => r.labels.length + 1
  | RuleKind.exception => r.labels.length - 1

/-- Modelled from the spec: the number of labels of the public suffix of a name:
the longest matching public suffix wins, including wildcard suffix rules; a
matching exception rule prevails over the others; when no rule matches the
implicit rule `*` makes the last label the public suffix. The lookup of
`golang.org/x/net/publicsuffix` is not under `src/`. -/
def publicSuffixLabels (rules : List Rule) (labels : List Str) : Nat :=
  let matching := rules.filter (fun r => r.matchesLabels labels)
  match matching.find? (fun r => decide (r.kind = RuleKind.exception)) with
  | some r => r.suffixLabels
  | none => (matching.map Rule.suffixLabels).foldl max 1

/-- Modelled from the spec: `publicsuffix.PublicSuffix`, the public suffix of a
name (the function of `golang.org/x/net/publicsuffix`, not under `src/`). -/
def PublicSuffix (rules : List Rule) (domain : Str) : Str :=
  let labels := splitLabels domain
  joinLabels (labels.drop (labels.length - publicSuffixLabels rules labels))

/-- Modelled from the spec: `publicsuffix.EffectiveTLDPlusOne` (not under
`src/`): the public suffix of the name plus the one label to its left; a bare
public suffix or an unparseable name (the empty name, a name with an empty label)
yields a failure, here `none`. -/
def EffectiveTLDPlusOne (rules : List Rule) (domain : Str) : Option Str :=
  let labels := splitLabels domain
  if labels.any List.isEmpty then none
  else
    let k := publicSuffixLabels rules labels
    if labels.length ≤ k then none
    else some (joinLabels (labels.drop (labels.length - (k + 1))))

/-- Modelled from the spec: `strings.ToLower`, which maps every rune of the
string to its lower case (package `strings` is not under `src/`). -/
def ToLower (lib : Lib) (s : Str) : Str :=
  s.map lib.toLowerRune

/-- Modelled from the spec: the NormalizationCache, a bounded mapping from raw
domain to normalized domain with unique keys and least-recently-used eviction
(`lru.Cache` of `github.com/hashicorp/golang-lru/v2`, not under `src/`).
`entries` is in recency order, the most recently used entry first. -/
structure Cache where
  size : Nat
  entries : List (Str × Str)
  deriving DecidableEq, Repr

/-- Keys of the cache, most recently used first. -/
def Cache.keys (c : Cache) : List Str :=
  c.entries.map Prod.fst

/-- Modelled from the spec: `lru.New`, an empty cache of a fixed capacity; a
capacity that is not positive is refused. -/
def New (size : Int) : Option Cache :=
  if size ≤ 0 then none else some { size := size.toNat, entries := [] }

/-- Modelled from the spec: `lru.Cache.Get`. A hit returns the cached value and
makes the entry the most recently used one; a miss leaves the cache as it is. -/
def Cache.Get (c : Cache) (key : Str) : Option Str × Cache :=
  match c.entries.find? (fun e => decide (e.1 = key)) with
  | some e => (some e.2, { c with entries := e :: c.entries.filter (fun e => decide (e.1 ≠ key)) })
  | none => (none, c)

/-- Modelled from the spec: `lru.Cache.Add`. An existing key gets the new value
and becomes the most recently used; a new key is put in front and, when the
cache then holds more than `size` entries, the least recently used entry is
evicted. The flag tells whether an eviction took place. -/
def Cache.Add (c : Cache) (key value : Str) : Bool × Cache :=
  if key ∈ c.keys then
    (false, { c with entries := (key, value) :: c.entries.filter (fun e => decide (e.1 ≠ key)) })
  else if c.size < c.entries.length + 1 then
    (true, { c with entries := ((key, value) :: c.entries).dropLast })
  else
    (false, { c with entries := (key, value) :: c.entries })

/-! ## `normaliseDomain` (src/dns-logger.go, lines 79-93) -/

/-- The function `normaliseDomain`: look the raw domain up in the LRU cache; on a
miss compute the eTLD+1 (the empty string when that fails), lower-case it, add it
to the cache and return it. The result comes with the cache after the call. -/
def normaliseDomain (lib : Lib) (lruCache : Cache) (rawDomain : Str) : Str × Cache :=
  match lruCache.Get rawDomain with
  | (some domainWithTLD, cache) => (domainWithTLD, cache)
  | (none, cache) =>
    let domainWithTLD :=
      match EffectiveTLDPlusOne lib.rules rawDomain with
      | some d => d
      | none => []
    let domainWithTLD := ToLower lib domainWithTLD
    (domainWithTLD, (cache.Add rawDomain domainWithTLD).2)

/-- The value `normaliseDomain` computes on a cache miss (lines 85-90): the
eTLD+1 of the raw domain, or the empty string when there is none, in lower case. -/
def missValue (lib : Lib) (rawDomain : Str) : Str :=
  ToLower lib
    (match EffectiveTLDPlusOne lib.rules rawDomain with
      | some d => d
      | none => [])

/-- Well-formed cache: a positive capacity, no more entries than the capacity,
no key twice. -/
def Cache.WF (c : Cache) : Prop :=
  1 ≤ c.size ∧ c.entries.length ≤ c.size ∧ c.keys.Nodup

/-- Every cached value is the value `normaliseDomain` computes for its key. -/
def Cache.Sound (lib : Lib) (c : Cache) : Prop :=
  ∀ e ∈ c.entries, e.2 = missValue lib e.1

instance Cache.decidableWF (c : Cache) : Decidable c.WF :=
  inferInstanceAs (Decidable (1 ≤ c.size ∧ c.entries.length ≤ c.size ∧ c.keys.Nodup))

instance Cache.decidableSound (lib : Lib) (c : Cache) : Decidable (c.Sound lib) :=
  inferInstanceAs (Decidable (∀ e ∈ c.entries, e.2 = missValue lib e.1))

/-- The cache after a sequence of `normaliseDomain` calls, one per raw domain, in
order. -/
def normaliseAll (lib : Lib) (lruCache : Cache) : List Str → Cache
  | [] => lruCache
  | x :: xs => normaliseAll lib (normaliseDomain lib lruCache x).2 xs

/-- The keys that one `normaliseDomain` call evicts: cached before the call and
no longer cached after it. -/
def evictedBy (lib : Lib) (lruCache : Cache) (rawDomain : Str) : List Str :=
  lruCache.keys.filter (fun k => decide (k ∉ (normaliseDomain lib lruCache rawDomain).2.keys))

/-- All evictions of a sequence of `normaliseDomain` calls, in order. -/
def evictions (lib : Lib) (lruCache : Cache) : List Str → List Str
  | [] => []
  | x :: xs =>
    evictedBy lib lruCache x ++ evictions lib (normaliseDomain lib lruCache x).2 xs

/-- The recency order after one more call on `x`: `x` becomes the most recently
used raw domain, the others keep their order. -/
def touch (ks : List Str) (x : Str) : List Str :=
  x :: ks.filter (fun k => decide (k ≠ x))

/-- The distinct raw domains of a sequence of calls, the most recently called
first. It is read off the call sequence alone, not off the cache. -/
def recency (calls : List Str) : List Str :=
  calls.foldl touch []

/-- The position, counted from 1, of the last call on raw domain `k` in a
sequence of calls; 0 when `k` was never called. -/
def lastUse (calls : List Str) (k : Str) : Nat :=
  calls.length - calls.reverse.indexOf k

/-- An excerpt of the public suffix list: the rules that bear on the names of the
repository's tests (`com`, `au`, `com.au`, `uk`, `co.uk`) and one wildcard rule
with its exception (`*.ck`, `!www.ck`). -/
def pslExcerpt : List Rule :=
  [ { kind := RuleKind.normal, labels := ["com".toList] },
    { kind := RuleKind.normal, labels := ["au".toList] },
    { kind := RuleKind.normal, labels := ["com".toList, "au".toList] },
    { kind := RuleKind.normal, labels := ["uk".toList] },
    { kind := RuleKind.normal, labels := ["co".toList, "uk".toList] },
    { kind := RuleKind.wildcard, labels := ["ck".toList] },
    { kind := RuleKind.exception, labels := ["www".toList, "ck".toList] } ]

/-- The six distinct raw domains the test harness sends through a cache of
capacity 5 (`src/testing/gorm_sqlite.go`, lines 46 and 48). -/
def testDomains : List Str :=
  [ "google.com".toList, "apple.com".toList, "subdomain.testingcom.au".toList, "".toList,
    "youtube.com".toList, "fAcebOok.com".toList ]

/-- Four calls on raw domains of the test harness, the first of them called
again before a third raw domain arrives. -/
def testCalls : List Str :=
  [ "google.com".toList, "apple.com".toList, "google.com".toList, "youtube.com".toList ]

/-- The collaborators as the tests meet them: the excerpt of the public suffix
list, and lower-casing of the ASCII letters (all the test names are ASCII, where
`unicode.ToLower` is this map). -/
def testLib : Lib :=
  { rules := pslExcerpt, toLowerRune := Char.toLower }

/-! ## `batchQueries` (src/dns-logger.go, lines 96-116) -/

/-- The row type `DnsQuery`: one observed DNS question. The timestamp is in
nanoseconds, the source address is the list of its bytes. -/
structure DnsQuery where
  Timestamp : Int
  RawDomain : Str
  Domain : Str
  QueryType : Str
  SrcIp : List Nat
  deriving DecidableEq, Repr

/-- The largest `time.Duration` (an `int64` count of nanoseconds). -/
def maxDuration : Int := 2 ^ 63 - 1

/-- The smallest `time.Duration`. -/
def minDuration : Int := -(2 ^ 63)

/-- The constant `time.Second`, in nanoseconds. -/
def Second : Int := 1000000000

/-- Modelled from the spec: `time.Since(startTime)` read when the clock shows
`now`: the elapsed time since the last flush, in nanoseconds. Clock readings are
integers (nanoseconds of the monotonic clock); as in package `time` (not under
`src/`), a difference outside the range of a `Duration` is replaced by the
nearest bound. -/
def Since (startTime now : Int) : Int :=
  if maxDuration < now - startTime then maxDuration
  else if now - startTime < minDuration then minDuration
  else now - startTime

/-- What one iteration of the loop of `batchQueries` takes from outside: the
query received from the channel, the clock reading `now` at `time.Since`, whether
`db.Create` returns without error should the batch be flushed, and the clock
reading `resetNow` of the `time.Now()` that resets the timer after a flush. -/
structure Arrival where
  query : DnsQuery
  now : Int
  sinkOk : Bool
  resetNow : Int
  deriving DecidableEq, Repr

/-- The local variables of `batchQueries`: the pending queries and the time of
the last flush. -/
structure Accumulator where
  queryCache : List DnsQuery
  startTime : Int
  deriving DecidableEq, Repr

/-- One call of `db.Create`: the batch handed to the Sink, and whether the insert
error was logged (it is when the Sink failed). -/
structure Flush where
  batch : List DnsQuery
  errorLogged : Bool
  deriving DecidableEq, Repr

/-- One iteration of `for query := range queries`: append the query, then flush
when the batch limit is reached, or when the batch is not empty and a second has
passed since the last flush. A flush hands the whole `queryCache` to `db.Create`,
logs its error if any, empties `queryCache` and resets `startTime`. -/
def batchStep (dbBatchLimit : Int) (st : Accumulator) (a : Arrival) :
    Accumulator × Option Flush :=
  let queryCache := st.queryCache ++ [a.query]
  if (queryCache.length : Int) ≥ dbBatchLimit
      ∨ (queryCache.length > 0 ∧ Since st.startTime a.now ≥ Second) then
    ({ queryCache := [], startTime := a.resetNow },
      some { batch := queryCache, errorLogged := !a.sinkOk })
  else
    ({ queryCache := queryCache, startTime := st.startTime }, none)

/-- The loop of `batchQueries` from a given state of its variables, over the
queries received until the channel is closed: the final state and the calls of
`db.Create`, in order. -/
def batchLoop (dbBatchLimit : Int) : Accumulator → List Arrival → Accumulator × List Flush
  | st, [] => (st, [])
  | st, a :: rest =>
    let r := batchStep dbBatchLimit st a
    let out := batchLoop dbBatchLimit r.1 rest
    (out.1, r.2.toList ++ out.2)

/-- The function `batchQueries`: the loop started with an empty `queryCache` and
`startTime := time.Now()`. -/
def batchQueries (dbBatchLimit : Int) (startNow : Int) (queries : List Arrival) :
    Accumulator × List Flush :=
  batchLoop dbBatchLimit { queryCache := [], startTime := startNow } queries

/-- The batches handed to the Sink, in flush order. -/
def batches (flushes : List Flush) : List (List DnsQuery) :=
  flushes.map Flush.batch

/-- A test query for a raw domain, with the fields the test harness gives it. -/
def testQuery (lib : Lib) (timestamp : Int) (rawDomain : Str) : DnsQuery :=
  { Timestamp := timestamp, RawDomain := rawDomain,
    Domain := (normaliseDomain lib { size := 5, entries := [] } rawDomain).1,
    QueryType := "A".toList, SrcIp := [192, 168, 1, 2] }

/-- Two queries of the test harness arriving with no time passing, the Sink
accepting what it is given. -/
def testArrivals : List Arrival :=
  [ { query := testQuery testLib 0 "google.com".toList, now := 0, sinkOk := true,
      resetNow := 0 },
    { query := testQuery testLib 1 "apple.com".toList, now := 0, sinkOk := true,
      resetNow := 0 } ]

/-! ## The batch accumulator: lemmas -/

theorem Second_le_Since_iff (startTime now : Int) :
    Second ≤ Since startTime now ↔ Second ≤ now - startTime := by
  unfold Since maxDuration minDuration Second
  split_ifs <;> omega

theorem batchStep_eq (dbBatchLimit : Int) (st : Accumulator) (a : Arrival) :
    batchStep dbBatchLimit st a =
      if ((st.queryCache ++ [a.query]).length : Int) ≥ dbBatchLimit
          ∨ ((st.queryCache ++ [a.query]).length > 0 ∧ Since st.startTime a.now ≥ Second) then
        ({ queryCache := [], startTime := a.resetNow },
          some { batch := st.queryCache ++ [a.query], errorLogged := !a.sinkOk })
      else
        ({ queryCache := st.queryCache ++ [a.query], startTime := st.startTime }, none) :=
  rfl

theorem batchStep_flush_iff (dbBatchLimit : Int) (st : Accumulator) (a : Arrival) :
    (batchStep dbBatchLimit st a).2.isSome = true ↔
      (((st.queryCache ++ [a.query]).length : Int) ≥ dbBatchLimit
        ∨ ((st.queryCache ++ [a.query]).length > 0 ∧ a.now - st.startTime ≥ Second)) := by
  have hs := Second_le_Since_iff st.startTime a.now
  rw [batchStep_eq]
  simp only [ge_iff_le] at hs ⊢
  rw [← hs]
  split_ifs with h
  · simpa using h
  · simpa using h

theorem batchStep_of_flush (dbBatchLimit : Int) (st : Accumulator) (a : Arrival)
    (h : (batchStep dbBatchLimit st a).2.isSome = true) :
    batchStep dbBatchLimit st a =
      ({ queryCache := [], startTime := a.resetNow },
        some { batch := st.queryCache ++ [a.query], errorLogged := !a.sinkOk }) := by
  rw [batchStep_eq] at h ⊢
  split_ifs with hc
  · rfl
  · rw [if_neg hc] at h
    simp at h

theorem batchStep_of_no_flush (dbBatchLimit : Int) (st : Accumulator) (a : Arrival)
    (h : (batchStep dbBatchLimit st a).2 = none) :
    batchStep dbBatchLimit st a =
      ({ queryCache := st.queryCache ++ [a.query], startTime := st.startTime }, none) := by
  rw [batchStep_eq] at h ⊢
  split_ifs with hc
  · rw [if_pos hc] at h
    simp at h
  · rfl

theorem batchStep_cases (dbBatchLimit : Int) (st : Accumulator) (a : Arrival) :
    batchStep dbBatchLimit st a =
        ({ queryCache := [], startTime := a.resetNow },
          some { batch := st.queryCache ++ [a.query], errorLogged := !a.sinkOk })
      ∨ batchStep dbBatchLimit st a =
        ({ queryCache := st.queryCache ++ [a.query], startTime := st.startTime }, none) := by
  cases h : (batchStep dbBatchLimit st a).2 with
  | none => exact Or.inr (batchStep_of_no_flush dbBatchLimit st a h)
  | some f => exact Or.inl (batchStep_of_flush dbBatchLimit st a (by simp [h]))

theorem batchLoop_append (dbBatchLimit : Int) (st : Accumulator) (xs ys : List Arrival) :
    batchLoop dbBatchLimit st (xs ++ ys) =
      ((batchLoop dbBatchLimit (batchLoop dbBatchLimit st xs).1 ys).1,
        (batchLoop dbBatchLimit st xs).2
          ++ (batchLoop dbBatchLimit (batchLoop dbBatchLimit st xs).1 ys).2) := by
  induction xs generalizing st with
  | nil => simp [batchLoop]
  | cons a rest ih => simp [batchLoop, ih]

/-- The batches flushed so far, concatenated, followed by what is pending, are
what was pending at the start followed by the queries received. -/
theorem batchLoop_flatten (dbBatchLimit : Int) (st : Accumulator) (xs : List Arrival) :
    (batches (batchLoop dbBatchLimit st xs).2).flatten
        ++ (batchLoop dbBatchLimit st xs).1.queryCache
      = st.queryCache ++ xs.map Arrival.query := by
  induction xs generalizing st with
  | nil => simp [batchLoop, batches]
  | cons a rest ih =>
    have hrest := ih (batchStep dbBatchLimit st a).1
    rcases batchStep_cases dbBatchLimit st a with h | h
    · rw [h] at hrest
      simp only [batches, List.nil_append] at hrest
      simp only [batchLoop, h, batches, Option.toList, List.map_cons, List.singleton_append,
        List.flatten_cons, List.append_assoc, List.cons_append, List.nil_append, hrest]
    · rw [h] at hrest
      simp only [batches] at hrest
      simp only [batchLoop, h, batches, Option.toList, List.nil_append, List.map_cons, hrest,
        List.append_assoc, List.singleton_append]

theorem batchLoop_batch_ne_nil (dbBatchLimit : Int) (st : Accumulator) (xs : List Arrival) :
    ∀ b ∈ batches (batchLoop dbBatchLimit st xs).2, b ≠ [] := by
  induction xs generalizing st with
  | nil => simp [batchLoop, batches]
  | cons a rest ih =>
    have hrest := ih (batchStep dbBatchLimit st a).1
    rcases batchStep_cases dbBatchLimit st a with h | h
    · intro b hb
      simp only [batchLoop, h, batches, Option.toList, List.singleton_append, List.map_cons,
        List.mem_cons] at hb
      rcases hb with rfl | hb
      · simp
      · apply hrest b
        rw [h]
        exact hb
    · intro b hb
      simp only [batchLoop, h, batches, Option.toList, List.nil_append] at hb
      apply hrest b
      rw [h]
      exact hb

/-- While the batch limit is not reached and the second has not passed, the loop
only accumulates. -/
theorem batchLoop_accumulate (dbBatchLimit : Int) (p : List DnsQuery) (s : Int)
    (xs : List Arrival) (hlen : ((p.length + xs.length : Nat) : Int) < dbBatchLimit)
    (ht : ∀ a ∈ xs, a.now - s < Second) :
    batchLoop dbBatchLimit { queryCache := p, startTime := s } xs =
      ({ queryCache := p ++ xs.map Arrival.query, startTime := s }, []) := by
  induction xs generalizing p with
  | nil => simp [batchLoop]
  | cons a rest ih =>
    have hno : (batchStep dbBatchLimit { queryCache := p, startTime := s } a).2 = none := by
      cases hf : (batchStep dbBatchLimit { queryCache := p, startTime := s } a).2 with
      | none => rfl
      | some f =>
        exfalso
        have hsome : (batchStep dbBatchLimit { queryCache := p, startTime := s } a).2.isSome
            = true := by simp [hf]
        rw [batchStep_flush_iff] at hsome
        have hta := ht a (List.mem_cons_self a rest)
        simp only [List.length_append, List.length_singleton, List.length_cons,
          List.length_nil] at hsome hlen
        rcases hsome with h1 | ⟨_, h2⟩
        · push_cast at h1 hlen
          omega
        · simp only [ge_iff_le] at h2
          omega
    have hstep := batchStep_of_no_flush dbBatchLimit _ a hno
    have hrest := ih (p ++ [a.query])
      (by simp only [List.length_append, List.length_singleton, List.length_cons,
            List.length_nil] at hlen ⊢
          push_cast at hlen ⊢
          omega)
      (fun b hb => ht b (List.mem_cons_of_mem a hb))
    simp only [batchLoop, hstep, hrest, Option.toList, List.nil_append, List.map_cons,
      List.append_assoc, List.singleton_append]

/-! ## The normalisation cache: lemmas -/

theorem New_eq_some {size : Int} {c : Cache} (h : New size = some c) :
    1 ≤ size ∧ c = { size := size.toNat, entries := [] } := by
  unfold New at h
  split_ifs at h with hs
  simp only [Option.some.injEq] at h
  exact ⟨by omega, h.symm⟩

theorem New_WF {size : Int} {c : Cache} (h : New size = some c) : c.WF := by
  obtain ⟨h1, rfl⟩ := New_eq_some h
  refine ⟨?_, ?_, ?_⟩
  · show 1 ≤ size.toNat
    omega
  · simp
  · simp [Cache.keys]

theorem New_Sound (lib : Lib) {size : Int} {c : Cache} (h : New size = some c) :
    c.Sound lib := by
  obtain ⟨_, rfl⟩ := New_eq_some h
  intro e he
  simp at he

/-- A call of `normaliseDomain` is a hit on a cached entry, which moves to the
front, or a miss on an absent key, which adds the computed value. -/
theorem normaliseDomain_cases (lib : Lib) (c : Cache) (x : Str) :
    (∃ v, (x, v) ∈ c.entries
        ∧ c.entries.find? (fun e => decide (e.1 = x)) = some (x, v)
        ∧ normaliseDomain lib c x
          = (v, { c with entries := (x, v) :: c.entries.filter (fun e => decide (e.1 ≠ x)) }))
    ∨ (x ∉ c.keys
        ∧ normaliseDomain lib c x = (missValue lib x, (c.Add x (missValue lib x)).2)) := by
  cases hf : c.entries.find? (fun e => decide (e.1 = x)) with
  | some e =>
    left
    have hmem := List.mem_of_find?_eq_some hf
    have hkey : e.1 = x := by simpa using List.find?_some hf
    obtain ⟨k, v⟩ := e
    simp only at hkey
    subst hkey
    exact ⟨v, hmem, rfl, by simp [normaliseDomain, Cache.Get, hf]⟩
  | none =>
    right
    constructor
    · intro hx
      obtain ⟨e, he, hk⟩ := List.mem_map.mp hx
      have := List.find?_eq_none.mp hf e he
      simp [hk] at this
    · simp [normaliseDomain, Cache.Get, hf, missValue]

theorem Add_of_not_mem (c : Cache) (x v : Str) (hx : x ∉ c.keys) :
    (c.Add x v).2 =
      if c.size < c.entries.length + 1 then
        { c with entries := ((x, v) :: c.entries).dropLast }
      else { c with entries := (x, v) :: c.entries } := by
  unfold Cache.Add
  rw [if_neg hx]
  split_ifs <;> rfl

theorem keys_filter_ne (entries : List (Str × Str)) (x : Str) :
    (entries.filter (fun e => decide (e.1 ≠ x))).map Prod.fst
      = (entries.map Prod.fst).filter (fun k => decide (k ≠ x)) := by
  rw [List.filter_map]
  rfl

/-- A hit leaves the capacity and the set of keys as they are, with the key in
front. -/
theorem hit_WF (c : Cache) (x v : Str) (hwf : c.WF) (hmem : (x, v) ∈ c.entries) :
    Cache.WF { c with entries := (x, v) :: c.entries.filter (fun e => decide (e.1 ≠ x)) } := by
  obtain ⟨h1, h2, h3⟩ := hwf
  refine ⟨h1, ?_, ?_⟩
  · have hlt : (c.entries.filter (fun e => decide (e.1 ≠ x))).length < c.entries.length :=
      List.length_filter_lt_length_iff_exists.mpr ⟨(x, v), hmem, by simp⟩
    simp only [List.length_cons]
    omega
  · simp only [Cache.keys, List.map_cons, keys_filter_ne]
    refine List.nodup_cons.mpr ⟨?_, List.Nodup.filter _ h3⟩
    intro hx
    simpa using (List.mem_filter.mp hx).2

theorem miss_WF (c : Cache) (x v : Str) (hwf : c.WF) (hx : x ∉ c.keys) :
    (c.Add x v).2.WF := by
  obtain ⟨h1, h2, h3⟩ := hwf
  have hnd : (((x, v) :: c.entries).map Prod.fst).Nodup := by
    simpa [Cache.keys] using List.nodup_cons.mpr ⟨hx, h3⟩
  rw [Add_of_not_mem c x v hx]
  split_ifs with hfull
  · refine ⟨h1, ?_, ?_⟩
    · simp only [List.length_dropLast, List.length_cons]
      omega
    · exact List.Nodup.sublist (List.Sublist.map _ (List.dropLast_sublist _)) hnd
  · refine ⟨h1, ?_, hnd⟩
    simp only [List.length_cons]
    omega

theorem normaliseDomain_WF (lib : Lib) (c : Cache) (x : Str) (hwf : c.WF) :
    (normaliseDomain lib c x).2.WF := by
  rcases normaliseDomain_cases lib c x with ⟨v, hmem, _, heq⟩ | ⟨hx, heq⟩
  · rw [heq]
    exact hit_WF c x v hwf hmem
  · rw [heq]
    exact miss_WF c x _ hwf hx

theorem normaliseDomain_Sound (lib : Lib) (c : Cache) (x : Str) (hs : c.Sound lib) :
    (normaliseDomain lib c x).2.Sound lib := by
  rcases normaliseDomain_cases lib c x with ⟨v, hmem, _, heq⟩ | ⟨hx, heq⟩
  · rw [heq]
    intro e he
    simp only [List.mem_cons] at he
    rcases he with rfl | he
    · exact hs _ hmem
    · exact hs e (List.mem_filter.mp he).1
  · rw [heq, Add_of_not_mem c x _ hx]
    intro e he
    have hsub : e ∈ (x, missValue lib x) :: c.entries := by
      split_ifs at he
      · exact List.mem_of_mem_dropLast he
      · exact he
    rcases List.mem_cons.mp hsub with rfl | he'
    · rfl
    · exact hs e he'

/-- On a cache whose values are all computed values, `normaliseDomain` returns
the computed value, hit or miss. -/
theorem normaliseDomain_value (lib : Lib) (c : Cache) (x : Str) (hs : c.Sound lib) :
    (normaliseDomain lib c x).1 = missValue lib x := by
  rcases normaliseDomain_cases lib c x with ⟨v, hmem, _, heq⟩ | ⟨hx, heq⟩
  · rw [heq]
    exact hs _ hmem
  · rw [heq]

theorem normaliseAll_WF (lib : Lib) (c : Cache) (xs : List Str) (hwf : c.WF) :
    (normaliseAll lib c xs).WF := by
  induction xs generalizing c with
  | nil => exact hwf
  | cons x rest ih => exact ih _ (normaliseDomain_WF lib c x hwf)

theorem normaliseAll_Sound (lib : Lib) (c : Cache) (xs : List Str) (hs : c.Sound lib) :
    (normaliseAll lib c xs).Sound lib := by
  induction xs generalizing c with
  | nil => exact hs
  | cons x rest ih => exact ih _ (normaliseDomain_Sound lib c x hs)

theorem normaliseAll_size (lib : Lib) (c : Cache) (xs : List Str) :
    (normaliseAll lib c xs).size = c.size := by
  induction xs generalizing c with
  | nil => rfl
  | cons x rest ih =>
    rw [normaliseAll, ih]
    rcases normaliseDomain_cases lib c x with ⟨v, _, _, heq⟩ | ⟨hx, heq⟩
    · rw [heq]
    · rw [heq, Add_of_not_mem c x _ hx]
      split_ifs <;> rfl

theorem normaliseAll_append (lib : Lib) (c : Cache) (xs ys : List Str) :
    normaliseAll lib c (xs ++ ys) = normaliseAll lib (normaliseAll lib c xs) ys := by
  induction xs generalizing c with
  | nil => rfl
  | cons x rest ih => simp [normaliseAll, ih]

/-- After a call on a well-formed cache the raw domain is the most recently used
key, cached with the value the call returned. -/
theorem normaliseDomain_front (lib : Lib) (c : Cache) (x : Str) (hwf : c.WF) :
    ∃ tl, (normaliseDomain lib c x).2.entries = (x, (normaliseDomain lib c x).1) :: tl := by
  rcases normaliseDomain_cases lib c x with ⟨v, hmem, _, heq⟩ | ⟨hx, heq⟩
  · rw [heq]
    exact ⟨_, rfl⟩
  · rw [heq, Add_of_not_mem c x _ hx]
    split_ifs with hfull
    · have hne : c.entries ≠ [] := by
        intro h
        have h1 := hwf.1
        rw [h] at hfull
        simp at hfull
        omega
      exact ⟨c.entries.dropLast, List.dropLast_cons_of_ne_nil hne⟩
    · exact ⟨c.entries, rfl⟩

theorem Get_front (c : Cache) (x v : Str) (tl : List (Str × Str))
    (h : c.entries = (x, v) :: tl) : (c.Get x).1 = some v := by
  simp [Cache.Get, h]

theorem keys_length (c : Cache) : c.keys.length = c.entries.length := by
  simp [Cache.keys]

/-- The keys after a miss: the new key in front, the last key dropped when the
cache was full. -/
theorem normaliseDomain_keys_of_miss (lib : Lib) (c : Cache) (x : Str) (hx : x ∉ c.keys) :
    (normaliseDomain lib c x).2.keys =
      if c.size < c.keys.length + 1 then (x :: c.keys).dropLast else x :: c.keys := by
  rcases normaliseDomain_cases lib c x with ⟨v, hmem, _, _⟩ | ⟨_, heq⟩
  · exact absurd (List.mem_map.mpr ⟨(x, v), hmem, rfl⟩) hx
  · rw [heq, Add_of_not_mem c x _ hx, keys_length]
    split_ifs
    · simp [Cache.keys, List.map_dropLast]
    · simp [Cache.keys]

theorem evictions_append (lib : Lib) (c : Cache) (xs ys : List Str) :
    evictions lib c (xs ++ ys)
      = evictions lib c xs ++ evictions lib (normaliseAll lib c xs) ys := by
  induction xs generalizing c with
  | nil => simp [evictions, normaliseAll]
  | cons x rest ih => simp [evictions, normaliseAll, ih]

/-- Distinct new keys that fit into the free room of the cache are all kept, in
reverse order of arrival, and nothing is evicted. -/
theorem normaliseAll_fill (lib : Lib) (c : Cache) (xs : List Str) (hnd : xs.Nodup)
    (hdisj : ∀ x ∈ xs, x ∉ c.keys) (hroom : c.keys.length + xs.length ≤ c.size) :
    (normaliseAll lib c xs).keys = xs.reverse ++ c.keys ∧ evictions lib c xs = [] := by
  induction xs generalizing c with
  | nil => simp [normaliseAll, evictions]
  | cons x rest ih =>
    have hx : x ∉ c.keys := hdisj x (List.mem_cons_self x rest)
    have hnd' := List.nodup_cons.mp hnd
    simp only [List.length_cons] at hroom
    have hkeys : (normaliseDomain lib c x).2.keys = x :: c.keys := by
      rw [normaliseDomain_keys_of_miss lib c x hx, if_neg (by omega)]
    have hsize : (normaliseDomain lib c x).2.size = c.size :=
      normaliseAll_size lib c [x]
    have h := ih (normaliseDomain lib c x).2 hnd'.2
      (by
        intro y hy
        rw [hkeys]
        intro hmem
        rcases List.mem_cons.mp hmem with rfl | hmem
        · exact hnd'.1 hy
        · exact hdisj y (List.mem_cons_of_mem x hy) hmem)
      (by rw [hkeys, hsize]; simp only [List.length_cons]; omega)
    constructor
    · rw [normaliseAll, h.1, hkeys]
      simp
    · rw [evictions, h.2, List.append_nil, evictedBy, hkeys]
      rw [List.filter_eq_nil_iff]
      intro k hk
      simp [hk]

theorem filter_not_mem_init (x : Str) (init : List Str) (l : Str) (hl : l ∉ init)
    (hxl : l ≠ x) :
    (init ++ [l]).filter (fun k => decide (k ∉ x :: init)) = [l] := by
  have h1 : List.filter (fun k => decide (k ∉ x :: init)) init = [] := by
    rw [List.filter_eq_nil_iff]
    intro k hk
    simp [hk]
  have h2 : List.filter (fun k => decide (k ∉ x :: init)) [l] = [l] := by
    rw [List.filter_eq_self]
    intro k hk
    rw [List.mem_singleton] at hk
    subst hk
    simp [hxl, hl]
  rw [List.filter_append, h1, h2, List.nil_append]

/-- A miss on a full cache evicts exactly the last key in recency order. -/
theorem evictedBy_full (lib : Lib) (c : Cache) (x : Str) (hnd : c.keys.Nodup)
    (hx : x ∉ c.keys) (hne : c.keys ≠ []) (hfull : c.size < c.keys.length + 1) :
    (normaliseDomain lib c x).2.keys = x :: c.keys.dropLast
      ∧ evictedBy lib c x = [c.keys.getLast hne] := by
  have hkeys : (normaliseDomain lib c x).2.keys = x :: c.keys.dropLast := by
    rw [normaliseDomain_keys_of_miss lib c x hx, if_pos hfull,
      List.dropLast_cons_of_ne_nil hne]
  refine ⟨hkeys, ?_⟩
  rw [evictedBy, hkeys]
  have hsplit := List.dropLast_append_getLast hne
  have hnd' : (c.keys.dropLast ++ [c.keys.getLast hne]).Nodup := by rw [hsplit]; exact hnd
  have hlast : c.keys.getLast hne ∉ c.keys.dropLast := by
    intro hmem
    exact (List.nodup_append.mp hnd').2.2 hmem (List.mem_singleton_self _)
  have hxl : c.keys.getLast hne ≠ x := by
    intro h
    exact hx (h ▸ List.getLast_mem hne)
  have key := filter_not_mem_init x c.keys.dropLast (c.keys.getLast hne) hlast hxl
  rw [hsplit] at key
  exact key

theorem init_le_foldl_max (l : List Nat) (a : Nat) : a ≤ l.foldl max a := by
  induction l generalizing a with
  | nil => exact Nat.le_refl _
  | cons b rest ih =>
    rw [List.foldl_cons]
    exact Nat.le_trans (Nat.le_max_left a b) (ih (max a b))

/-- A fold of `max` is at least every element of the list. -/
theorem mem_le_foldl_max (l : List Nat) (a n : Nat) (h : n ∈ l) : n ≤ l.foldl max a := by
  induction l generalizing a with
  | nil => simp at h
  | cons b rest ih =>
    rw [List.foldl_cons]
    rcases List.mem_cons.mp h with hb | hr
    · rw [hb]
      exact Nat.le_trans (Nat.le_max_right a b) (init_le_foldl_max rest (max a b))
    · exact ih (max a b) hr

/-! ## Recency order of a call sequence -/

theorem recency_snoc (ys : List Str) (x : Str) :
    recency (ys ++ [x]) = touch (recency ys) x := by
  simp [recency, List.foldl_append]

theorem touch_nodup (r : List Str) (x : Str) (hr : r.Nodup) : (touch r x).Nodup := by
  unfold touch
  refine List.nodup_cons.mpr ⟨?_, List.Nodup.filter _ hr⟩
  intro hx
  simpa using (List.mem_filter.mp hx).2

theorem recency_nodup (ys : List Str) : (recency ys).Nodup := by
  induction ys using List.reverseRecOn with
  | nil => simp [recency]
  | append_singleton ys x ih =>
    rw [recency_snoc]
    exact touch_nodup _ x ih

theorem lastUse_snoc (ys : List Str) (x k : Str) :
    lastUse (ys ++ [x]) k = if k = x then ys.length + 1 else lastUse ys k := by
  unfold lastUse
  rw [List.reverse_append, List.reverse_singleton, List.singleton_append, List.indexOf_cons,
    List.length_append, List.length_singleton]
  by_cases h : k = x
  · have hb : (x == k) = true := by simp [h]
    rw [hb, if_pos h]
    simp
  · have hb : (x == k) = false := by
      simp only [beq_eq_false_iff_ne, ne_eq]
      exact fun h' => h h'.symm
    rw [hb, if_neg h]
    simp only [cond_false]
    omega

theorem lastUse_le (ys : List Str) (k : Str) : lastUse ys k ≤ ys.length := by
  unfold lastUse
  omega

/-- A raw domain has a last call exactly when it was called. -/
theorem lastUse_pos_iff (ys : List Str) (k : Str) : 0 < lastUse ys k ↔ k ∈ ys := by
  induction ys using List.reverseRecOn with
  | nil => simp [lastUse]
  | append_singleton ys x ih =>
    rw [lastUse_snoc, List.mem_append, List.mem_singleton]
    by_cases h : k = x
    · simp [h]
    · simp [h, ih]

theorem mem_recency (ys : List Str) (k : Str) : k ∈ recency ys ↔ k ∈ ys := by
  induction ys using List.reverseRecOn with
  | nil => simp [recency]
  | append_singleton ys x ih =>
    rw [recency_snoc, touch, List.mem_cons, List.mem_filter, ih, List.mem_append,
      List.mem_singleton]
    by_cases h : k = x
    · simp [h]
    · simp [h]

/-- The recency order lists the raw domains by decreasing position of their last
call. -/
theorem recency_sorted (ys : List Str) :
    (recency ys).Pairwise (fun a b => lastUse ys b < lastUse ys a) := by
  induction ys using List.reverseRecOn with
  | nil => simp [recency]
  | append_singleton ys x ih =>
    rw [recency_snoc, touch, List.pairwise_cons]
    constructor
    · intro b hb
      have hbx : b ≠ x := by simpa using (List.mem_filter.mp hb).2
      rw [lastUse_snoc, lastUse_snoc, if_neg hbx, if_pos rfl]
      have := lastUse_le ys b
      omega
    · refine List.Pairwise.imp_of_mem ?_ (List.Pairwise.filter _ ih)
      intro a b ha hb hab
      have hax : a ≠ x := by simpa using (List.mem_filter.mp ha).2
      have hbx : b ≠ x := by simpa using (List.mem_filter.mp hb).2
      rw [lastUse_snoc, lastUse_snoc, if_neg hax, if_neg hbx]
      exact hab

theorem filter_ne_eq_self (r : List Str) (x : Str) (hx : x ∉ r) :
    r.filter (fun k => decide (k ≠ x)) = r := by
  rw [List.filter_eq_self]
  intro a ha
  have : a ≠ x := fun h => hx (h ▸ ha)
  simpa using this

theorem filter_take_of_mem (r : List Str) (x : Str) (m : Nat) (hr : r.Nodup)
    (hx : x ∈ r.take (m + 1)) :
    (r.take (m + 1)).filter (fun k => decide (k ≠ x))
      = (r.filter (fun k => decide (k ≠ x))).take m := by
  induction r generalizing m with
  | nil => simp at hx
  | cons a t ih =>
    have hnd := List.nodup_cons.mp hr
    rw [List.take_succ_cons] at hx ⊢
    by_cases hax : a = x
    · subst hax
      have h1 : (List.take m t).filter (fun k => decide (k ≠ a)) = List.take m t :=
        filter_ne_eq_self _ a (fun h => hnd.1 (List.mem_of_mem_take h))
      have h2 : t.filter (fun k => decide (k ≠ a)) = t := filter_ne_eq_self _ a hnd.1
      rw [List.filter_cons_of_neg (by simp), List.filter_cons_of_neg (by simp), h1, h2]
    · have hxt : x ∈ List.take m t := by
        rcases List.mem_cons.mp hx with h | h
        · exact absurd h.symm hax
        · exact h
      cases m with
      | zero => simp at hxt
      | succ m' =>
        have h := ih m' hnd.2 hxt
        rw [List.filter_cons_of_pos (by simpa using hax),
          List.filter_cons_of_pos (by simpa using hax), List.take_succ_cons, h]

theorem take_filter_of_not_mem (r : List Str) (x : Str) (m : Nat) (hx : x ∉ r.take m) :
    (r.filter (fun k => decide (k ≠ x))).take m = r.take m := by
  induction r generalizing m with
  | nil => simp
  | cons a t ih =>
    cases m with
    | zero => simp
    | succ m' =>
      rw [List.take_succ_cons, List.mem_cons, not_or] at hx
      have hax : a ≠ x := fun h => hx.1 h.symm
      have h := ih m' hx.2
      rw [List.filter_cons_of_pos (by simpa using hax), List.take_succ_cons,
        List.take_succ_cons, h]

/-- The keys after a hit: the key in front, the others in their order. -/
theorem normaliseDomain_keys_of_hit (lib : Lib) (c : Cache) (x : Str) (hx : x ∈ c.keys) :
    (normaliseDomain lib c x).2.keys = touch c.keys x := by
  rcases normaliseDomain_cases lib c x with ⟨v, _, _, heq⟩ | ⟨hnot, _⟩
  · rw [heq]
    simp only [Cache.keys, List.map_cons, keys_filter_ne, touch]
  · exact absurd hx hnot

/-- One call keeps the cache on the most recently used raw domains: if the keys
are the first `size` raw domains of a recency order, they are so after the call. -/
theorem normaliseDomain_keys_recency (lib : Lib) (c : Cache) (x : Str) (r : List Str)
    (hr : r.Nodup) (hsize : 1 ≤ c.size) (hk : c.keys = r.take c.size) :
    (normaliseDomain lib c x).2.keys = (touch r x).take c.size := by
  obtain ⟨m, hm⟩ : ∃ m, c.size = m + 1 := ⟨c.size - 1, by omega⟩
  rw [hm] at hk ⊢
  have htouch : (touch r x).take (m + 1)
      = x :: (r.filter (fun k => decide (k ≠ x))).take m := by
    simp [touch]
  rw [htouch]
  by_cases hx : x ∈ c.keys
  · rw [normaliseDomain_keys_of_hit lib c x hx, touch, hk]
    rw [hk] at hx
    rw [filter_take_of_mem r x m hr hx]
  · rw [normaliseDomain_keys_of_miss lib c x hx, hm]
    rw [hk] at hx
    have hxm : x ∉ r.take m := fun h =>
      hx ((List.take_sublist_take_left r (Nat.le_succ m)).subset h)
    rw [take_filter_of_not_mem r x m hxm, hk]
    split_ifs with hfull
    · have hlen : m + 1 ≤ r.length := by
        rw [List.length_take] at hfull
        omega
      have hne : List.take (m + 1) r ≠ [] := by
        intro h
        have h2 : (List.take (m + 1) r).length = 0 := by rw [h]; rfl
        rw [List.length_take] at h2
        omega
      have hd : (List.take (m + 1) r).dropLast = List.take m r := by
        rw [List.dropLast_eq_take, List.take_take, List.length_take]
        congr 1
        omega
      rw [List.dropLast_cons_of_ne_nil hne, hd]
    · have hlen : r.length ≤ m := by
        rw [List.length_take] at hfull
        omega
      rw [List.take_of_length_le (by omega : r.length ≤ m + 1),
        List.take_of_length_le hlen]

/-- After any sequence of calls from an empty cache, the keys are the `size` most
recently called raw domains, the most recent first. -/
theorem normaliseAll_keys_recency (lib : Lib) (c : Cache) (hsize : 1 ≤ c.size)
    (hempty : c.keys = []) (ys : List Str) :
    (normaliseAll lib c ys).keys = (recency ys).take c.size := by
  induction ys using List.reverseRecOn with
  | nil => simp [normaliseAll, recency, hempty]
  | append_singleton ys x ih =>
    have hs := normaliseAll_size lib c ys
    rw [normaliseAll_append, recency_snoc]
    simp only [normaliseAll]
    rw [← hs] at ih hsize ⊢
    exact normaliseDomain_keys_recency lib _ x (recency ys) (recency_nodup ys) hsize ih

/-! ## The batch accumulator: claims -/

/-- C2. For every accumulator state (pending `p`, time reference `s`) and every
arrival, `batchQueries` flushes in that step exactly when
`len(p ++ [e]) >= dbBatchLimit`, or `len(p ++ [e]) > 0` and `now - s >= Second`;
a flush hands the whole of `p ++ [e]` to the Sink as one batch; without a flush
the pending sequence becomes `p ++ [e]` and the time reference stays `s`. -/
theorem batchStep_flush_rule (dbBatchLimit : Int) (p : List DnsQuery) (s : Int) (a : Arrival) :
    ((batchStep dbBatchLimit { queryCache := p, startTime := s } a).2.isSome = true ↔
        (((p ++ [a.query]).length : Int) ≥ dbBatchLimit
          ∨ ((p ++ [a.query]).length > 0 ∧ a.now - s ≥ Second)))
    ∧ (∀ f, (batchStep dbBatchLimit { queryCache := p, startTime := s } a).2 = some f →
        f.batch = p ++ [a.query])
    ∧ ((batchStep dbBatchLimit { queryCache := p, startTime := s } a).2 = none →
        (batchStep dbBatchLimit { queryCache := p, startTime := s } a).1
          = { queryCache := p ++ [a.query], startTime := s }) := by
  refine ⟨batchStep_flush_iff dbBatchLimit _ a, ?_, ?_⟩
  · intro f hf
    have h := batchStep_of_flush dbBatchLimit { queryCache := p, startTime := s } a
      (by simp [hf])
    rw [h] at hf
    simp only [Option.some.injEq] at hf
    rw [← hf]
  · intro hn
    rw [batchStep_of_no_flush dbBatchLimit _ a hn]

/-- C3, as the spec states it, fails: with one pending query and the second
already passed, the flush triggered by the next query hands BOTH queries to the
Sink, not the pending one alone. -/
theorem time_flush_counterexample :
    (2000000000 : Int) - 0 ≥ Second
    ∧ (batchStep 100000
        { queryCache := [testQuery testLib 0 "google.com".toList], startTime := 0 }
        { query := testQuery testLib 1 "apple.com".toList, now := 2000000000, sinkOk := true,
          resetNow := 2000000005 }).2
      = some { batch := [testQuery testLib 0 "google.com".toList,
                         testQuery testLib 1 "apple.com".toList],
               errorLogged := false }
    ∧ (batchStep 100000
        { queryCache := [testQuery testLib 0 "google.com".toList], startTime := 0 }
        { query := testQuery testLib 1 "apple.com".toList, now := 2000000000, sinkOk := true,
          resetNow := 2000000005 }).2.map Flush.batch
      ≠ some [testQuery testLib 0 "google.com".toList] := by
  refine ⟨by decide, ?_, ?_⟩
  · rw [batchStep_eq]
    simp [Since, Second, maxDuration, minDuration]
  · rw [batchStep_eq]
    simp [Since, Second, maxDuration, minDuration]

/-- C3, amended. Time-based flush: with exactly one pending query and the second
already passed since the last flush, the arrival of the next query triggers a
flush whose batch is the pending query followed by the triggering query; the
pending sequence is empty afterwards and the timer is reset. -/
theorem time_flush_batch (dbBatchLimit : Int) (e₁ : DnsQuery) (s : Int) (a : Arrival)
    (helapsed : a.now - s ≥ Second) :
    batchStep dbBatchLimit { queryCache := [e₁], startTime := s } a =
      ({ queryCache := [], startTime := a.resetNow },
        some { batch := [e₁, a.query], errorLogged := !a.sinkOk }) := by
  have h : (batchStep dbBatchLimit { queryCache := [e₁], startTime := s } a).2.isSome
      = true := by
    rw [batchStep_flush_iff]
    exact Or.inr ⟨by simp, helapsed⟩
  simpa using batchStep_of_flush dbBatchLimit _ a h

/-- Witness for C3 amended: a state with one pending query, two seconds after the
last flush. -/
theorem time_flush_batch_witness :
    (2000000000 : Int) - 0 ≥ Second
    ∧ batchStep 100000
        { queryCache := [testQuery testLib 0 "google.com".toList], startTime := 0 }
        { query := testQuery testLib 1 "apple.com".toList, now := 2000000000, sinkOk := false,
          resetNow := 2000000005 }
      = ({ queryCache := [], startTime := 2000000005 },
          some { batch := [testQuery testLib 0 "google.com".toList,
                           testQuery testLib 1 "apple.com".toList],
                 errorLogged := true }) :=
  ⟨by decide,
    time_flush_batch 100000 (testQuery testLib 0 "google.com".toList) 0
      { query := testQuery testLib 1 "apple.com".toList, now := 2000000000, sinkOk := false,
        resetNow := 2000000005 } (by decide)⟩

/-- C4. Count-based flush: for every count threshold `n >= 1`, starting from an
empty pending sequence, when `n` queries are received without the second passing
(in particular with no time passing at all), none of the first `n - 1` queries
triggers a flush, and the `n`-th triggers exactly one flush, whose batch is those
`n` queries in arrival order; the pending sequence is empty afterwards. -/
theorem count_flush (n : Nat) (s : Int) (xs : List Arrival) (hn : 1 ≤ n)
    (hlen : xs.length = n) (ht : ∀ a ∈ xs, a.now - s < Second) :
    (∀ k, k < n → batchQueries n s (xs.take k)
        = ({ queryCache := (xs.take k).map Arrival.query, startTime := s }, []))
    ∧ ∃ a, xs.getLast? = some a
        ∧ batchQueries n s xs
          = ({ queryCache := [], startTime := a.resetNow },
              [{ batch := xs.map Arrival.query, errorLogged := !a.sinkOk }]) := by
  constructor
  · intro k hk
    have h := batchLoop_accumulate (n : Int) [] s (xs.take k)
      (by simp only [List.length_nil, List.length_take, Nat.zero_add]
          have : min k xs.length < n := lt_of_le_of_lt (Nat.min_le_left _ _) hk
          exact_mod_cast this)
      (fun a ha => ht a (List.mem_of_mem_take ha))
    simpa [batchQueries] using h
  · have hne : xs ≠ [] := by
      intro h
      rw [h] at hlen
      simp at hlen
      omega
    refine ⟨xs.getLast hne, List.getLast?_eq_getLast xs hne, ?_⟩
    have hsplit := List.dropLast_append_getLast hne
    have hacc := batchLoop_accumulate (n : Int) [] s xs.dropLast
      (by simp only [List.length_nil, List.length_dropLast, Nat.zero_add]
          have : xs.length - 1 < n := by omega
          exact_mod_cast this)
      (fun a ha => ht a (List.mem_of_mem_dropLast ha))
    have hflush : (batchStep (n : Int)
        { queryCache := [] ++ xs.dropLast.map Arrival.query, startTime := s }
        (xs.getLast hne)).2.isSome = true := by
      rw [batchStep_flush_iff]
      left
      simp only [List.nil_append, List.length_append, List.length_map, List.length_dropLast,
        List.length_singleton, ge_iff_le]
      have : n ≤ xs.length - 1 + 1 := by omega
      exact_mod_cast this
    have hstep := batchStep_of_flush (n : Int) _ (xs.getLast hne) hflush
    simp only [List.nil_append] at hacc hstep
    have hq : xs.dropLast.map Arrival.query ++ [(xs.getLast hne).query]
        = xs.map Arrival.query := by
      conv_rhs => rw [← hsplit]
      simp
    unfold batchQueries
    conv_lhs => rw [← hsplit]
    rw [batchLoop_append, hacc]
    simp only [batchLoop, hstep, Option.toList, List.nil_append, List.append_nil] at hq ⊢
    rw [hq]

/-- Witness for C4: the test harness, whose batch limit is 2, receiving two
queries with no time passing. -/
theorem count_flush_witness :
    1 ≤ 2
    ∧ (∀ k, k < 2 → batchQueries (2 : Nat) 0 (testArrivals.take k)
        = ({ queryCache := (testArrivals.take k).map Arrival.query, startTime := 0 }, []))
    ∧ ∃ a, testArrivals.getLast? = some a
        ∧ batchQueries (2 : Nat) 0 testArrivals
          = ({ queryCache := [], startTime := a.resetNow },
              [{ batch := testArrivals.map Arrival.query, errorLogged := !a.sinkOk }]) :=
  ⟨by decide, count_flush 2 0 testArrivals (by decide) rfl (by simp [testArrivals, Second])⟩

/-- C8. Whenever a received query triggers a flush, the accumulator state after
the step is the same whether the Sink succeeds or fails: the pending sequence is
empty and the time reference is the clock reading of the reset; a failed insert
is only logged. The loop goes on with the queries that follow, and what is handed
to the Sink from then on (and what stays pending) is made of those later queries
alone, so a dropped batch is never handed over again. -/
theorem flush_state_ignores_sink (dbBatchLimit : Int) (st : Accumulator) (a : Arrival)
    (hflush : (batchStep dbBatchLimit st a).2.isSome = true) :
    (∀ ok : Bool, batchStep dbBatchLimit st { a with sinkOk := ok }
        = ({ queryCache := [], startTime := a.resetNow },
            some { batch := st.queryCache ++ [a.query], errorLogged := !ok }))
    ∧ (∀ (ok : Bool) (rest : List Arrival),
        batchLoop dbBatchLimit st ({ a with sinkOk := ok } :: rest)
          = ((batchLoop dbBatchLimit { queryCache := [], startTime := a.resetNow } rest).1,
              { batch := st.queryCache ++ [a.query], errorLogged := !ok }
                :: (batchLoop dbBatchLimit
                      { queryCache := [], startTime := a.resetNow } rest).2))
    ∧ (∀ rest : List Arrival,
        (batches (batchLoop dbBatchLimit
            { queryCache := [], startTime := a.resetNow } rest).2).flatten
          ++ (batchLoop dbBatchLimit
                { queryCache := [], startTime := a.resetNow } rest).1.queryCache
          = rest.map Arrival.query) := by
  have hstep : ∀ ok : Bool, batchStep dbBatchLimit st { a with sinkOk := ok }
      = ({ queryCache := [], startTime := a.resetNow },
          some { batch := st.queryCache ++ [a.query], errorLogged := !ok }) := by
    intro ok
    have h : (batchStep dbBatchLimit st { a with sinkOk := ok }).2.isSome = true := by
      rw [batchStep_flush_iff] at hflush ⊢
      exact hflush
    exact batchStep_of_flush dbBatchLimit st { a with sinkOk := ok } h
  refine ⟨hstep, ?_, ?_⟩
  · intro ok rest
    simp only [batchLoop, hstep ok, Option.toList, List.singleton_append]
  · intro rest
    simpa using batchLoop_flatten dbBatchLimit
      { queryCache := [], startTime := a.resetNow } rest

/-- Witness for C8: the second query of the test harness reaches the batch limit
of 2 and triggers a flush. -/
theorem flush_state_ignores_sink_witness :
    (batchStep 2 { queryCache := [testQuery testLib 0 "google.com".toList], startTime := 0 }
        { query := testQuery testLib 1 "apple.com".toList, now := 0, sinkOk := true,
          resetNow := 7 }).2.isSome = true
    ∧ (∀ ok : Bool,
        batchStep 2 { queryCache := [testQuery testLib 0 "google.com".toList], startTime := 0 }
          { query := testQuery testLib 1 "apple.com".toList, now := 0, sinkOk := ok,
            resetNow := 7 }
        = ({ queryCache := [], startTime := 7 },
            some { batch := [testQuery testLib 0 "google.com".toList,
                             testQuery testLib 1 "apple.com".toList],
                   errorLogged := !ok })) :=
  ⟨by rw [batchStep_flush_iff]; left; simp,
    (flush_state_ignores_sink 2
      { queryCache := [testQuery testLib 0 "google.com".toList], startTime := 0 }
      { query := testQuery testLib 1 "apple.com".toList, now := 0, sinkOk := true,
        resetNow := 7 }
      (by rw [batchStep_flush_iff]; left; simp)).1⟩

/-- C10. For every finite sequence of queries received by `batchQueries`, with
any arrival times and any Sink outcomes, the batches handed to the Sink,
concatenated in flush order and followed by the pending sequence, are the
received sequence in arrival order. Hence no batch is empty, no query is handed
over more often than it was received, and batches of distinct queries are
pairwise disjoint. -/
theorem batches_partition_arrivals (dbBatchLimit : Int) (startNow : Int) (xs : List Arrival) :
    (batches (batchQueries dbBatchLimit startNow xs).2).flatten
        ++ (batchQueries dbBatchLimit startNow xs).1.queryCache
      = xs.map Arrival.query
    ∧ (∀ b ∈ batches (batchQueries dbBatchLimit startNow xs).2, b ≠ [])
    ∧ (∀ q : DnsQuery,
        ((batches (batchQueries dbBatchLimit startNow xs).2).map (List.count q)).sum
          + (batchQueries dbBatchLimit startNow xs).1.queryCache.count q
          = (xs.map Arrival.query).count q)
    ∧ ((xs.map Arrival.query).Nodup →
        (batches (batchQueries dbBatchLimit startNow xs).2).Pairwise List.Disjoint) := by
  have hcat : (batches (batchQueries dbBatchLimit startNow xs).2).flatten
        ++ (batchQueries dbBatchLimit startNow xs).1.queryCache
      = xs.map Arrival.query := by
    simpa [batchQueries] using batchLoop_flatten dbBatchLimit
      { queryCache := [], startTime := startNow } xs
  refine ⟨hcat, ?_, ?_, ?_⟩
  · exact batchLoop_batch_ne_nil dbBatchLimit _ xs
  · intro q
    rw [← hcat, List.count_append, List.count_flatten]
  · intro hnd
    rw [← hcat] at hnd
    exact (List.nodup_flatten.mp (List.Nodup.of_append_left hnd)).2

/-! ## The normalisation cache: claims -/

/-- C1. For every raw domain that is absent from the cache and for which
public-suffix matching yields an eTLD+1 `y`, `normaliseDomain` returns `y` in
lower case; and `y` is the public suffix of the raw domain plus the one label to
its left, where the public suffix is at least as long as what any matching rule
yields (no exception rule matching). -/
theorem normaliseDomain_etld_plus_one (lib : Lib) (c : Cache) (x y : Str)
    (hmiss : (c.Get x).1 = none) (hy : EffectiveTLDPlusOne lib.rules x = some y) :
    (normaliseDomain lib c x).1 = ToLower lib y
    ∧ ∃ pre l suf, splitLabels x = pre ++ l :: suf
        ∧ PublicSuffix lib.rules x = joinLabels suf
        ∧ y = joinLabels (l :: suf)
        ∧ ((∀ r ∈ lib.rules, r.matchesLabels (splitLabels x) = true →
              r.kind ≠ RuleKind.exception) →
            ∀ r ∈ lib.rules, r.matchesLabels (splitLabels x) = true →
              r.suffixLabels ≤ suf.length) := by
  constructor
  · rcases normaliseDomain_cases lib c x with ⟨v, _, hfind, _⟩ | ⟨_, heq⟩
    · simp [Cache.Get, hfind] at hmiss
    · rw [heq]
      simp [missValue, hy]
  · unfold EffectiveTLDPlusOne at hy
    simp only at hy
    split_ifs at hy with hempty hbare
    simp only [Option.some.injEq] at hy
    have hk : publicSuffixLabels lib.rules (splitLabels x) < (splitLabels x).length := by
      omega
    have hi : (splitLabels x).length - (publicSuffixLabels lib.rules (splitLabels x) + 1)
        < (splitLabels x).length := by omega
    have hdrop := List.drop_eq_getElem_cons hi
    have hnext : (splitLabels x).length - (publicSuffixLabels lib.rules (splitLabels x) + 1) + 1
        = (splitLabels x).length - publicSuffixLabels lib.rules (splitLabels x) := by omega
    rw [hnext] at hdrop
    refine ⟨(splitLabels x).take
        ((splitLabels x).length - (publicSuffixLabels lib.rules (splitLabels x) + 1)),
      (splitLabels x)[(splitLabels x).length
        - (publicSuffixLabels lib.rules (splitLabels x) + 1)],
      (splitLabels x).drop
        ((splitLabels x).length - publicSuffixLabels lib.rules (splitLabels x)),
      ?_, rfl, ?_, ?_⟩
    · rw [← hdrop, List.take_append_drop]
    · rw [← hy, hdrop]
    · intro hnoexc r hr hmatch
      have hlen : ((splitLabels x).drop
          ((splitLabels x).length - publicSuffixLabels lib.rules (splitLabels x))).length
          = publicSuffixLabels lib.rules (splitLabels x) := by
        rw [List.length_drop]
        omega
      rw [hlen]
      have hmem : r ∈ lib.rules.filter (fun r => r.matchesLabels (splitLabels x)) :=
        List.mem_filter.mpr ⟨hr, hmatch⟩
      have hnone : (lib.rules.filter (fun r => r.matchesLabels (splitLabels x))).find?
          (fun r => decide (r.kind = RuleKind.exception)) = none := by
        rw [List.find?_eq_none]
        intro r' hr'
        have h' := List.mem_filter.mp hr'
        simpa using hnoexc r' h'.1 h'.2
      unfold publicSuffixLabels
      simp only [hnone]
      exact mem_le_foldl_max _ 1 _ (List.mem_map.mpr ⟨r, hmem, rfl⟩)

/-- Witness for C1: the two calls of `TestNormaliseDomain`, on a fresh cache of
the program's capacity and on the cache the first call leaves. -/
theorem normaliseDomain_etld_plus_one_witness :
    EffectiveTLDPlusOne testLib.rules "subdomain.testingcom.au".toList
        = some "testingcom.au".toList
    ∧ (normaliseDomain testLib { size := 1000000, entries := [] }
          "subdomain.testingcom.au".toList).1 = "testingcom.au".toList
    ∧ EffectiveTLDPlusOne testLib.rules "subdomain.testingcom.co.uk".toList
        = some "testingcom.co.uk".toList
    ∧ (normaliseDomain testLib
          (normaliseDomain testLib { size := 1000000, entries := [] }
            "subdomain.testingcom.au".toList).2
          "subdomain.testingcom.co.uk".toList).1 = "testingcom.co.uk".toList :=
  ⟨by decide,
    (normaliseDomain_etld_plus_one testLib { size := 1000000, entries := [] }
      "subdomain.testingcom.au".toList "testingcom.au".toList
      (by decide) (by decide)).1.trans (by decide),
    by decide,
    (normaliseDomain_etld_plus_one testLib
      (normaliseDomain testLib { size := 1000000, entries := [] }
        "subdomain.testingcom.au".toList).2
      "subdomain.testingcom.co.uk".toList "testingcom.co.uk".toList
      (by decide) (by decide)).1.trans (by decide)⟩

/-- C5. Cache bound: for a cache created with capacity `N` (so `N >= 1`) and
every sequence of `normaliseDomain` calls from the empty cache, the number of
cached entries never exceeds `N` and no key is cached twice; `N + 1` distinct
raw domains cause exactly one eviction, of the first of them, the other `N`
staying cached (the first `N` calls evict nothing). Eviction is least recently
used with respect to the calls made: after any sequence of calls the cached keys
are the `N` most recently called distinct raw domains, and a miss on a full cache
evicts exactly one key, the cached key whose last call lies furthest back. -/
theorem cache_bound (lib : Lib) (N : Int) (c₀ : Cache) (h₀ : New N = some c₀) :
    (∀ xs : List Str,
        ((normaliseAll lib c₀ xs).entries.length : Int) ≤ N
          ∧ (normaliseAll lib c₀ xs).keys.Nodup)
    ∧ (∀ xs : List Str, xs.Nodup → (xs.length : Int) = N + 1 →
        (∀ k : Nat, (k : Int) ≤ N →
            (normaliseAll lib c₀ (xs.take k)).keys = (xs.take k).reverse
              ∧ evictions lib c₀ (xs.take k) = [])
        ∧ ∃ x₀ rest, xs = x₀ :: rest
            ∧ evictions lib c₀ xs = [x₀]
            ∧ (normaliseAll lib c₀ xs).keys = rest.reverse)
    ∧ (∀ (ys : List Str) (x : Str),
        x ∉ (normaliseAll lib c₀ ys).keys →
        ((normaliseAll lib c₀ ys).keys.length : Int) = N →
        ∃ hne : (normaliseAll lib c₀ ys).keys ≠ [],
          evictedBy lib (normaliseAll lib c₀ ys) x = [(normaliseAll lib c₀ ys).keys.getLast hne]
            ∧ (normaliseDomain lib (normaliseAll lib c₀ ys) x).2.keys
                = x :: (normaliseAll lib c₀ ys).keys.dropLast)
    ∧ (∀ ys : List Str, (normaliseAll lib c₀ ys).keys = (recency ys).take N.toNat)
    ∧ (∀ (ys : List Str) (x : Str),
        x ∉ (normaliseAll lib c₀ ys).keys →
        ((normaliseAll lib c₀ ys).keys.length : Int) = N →
        ∃ v, evictedBy lib (normaliseAll lib c₀ ys) x = [v]
          ∧ v ∈ ys
          ∧ v ∈ (normaliseAll lib c₀ ys).keys
          ∧ ∀ k ∈ (normaliseAll lib c₀ ys).keys, k ≠ v → lastUse ys v < lastUse ys k) := by
  have hwf₀ := New_WF h₀
  obtain ⟨hN, hc₀⟩ := New_eq_some h₀
  have hsize₀ : (c₀.size : Int) = N := by
    rw [hc₀]
    show ((N.toNat : Nat) : Int) = N
    omega
  have hsizeNat : c₀.size = N.toNat := by rw [hc₀]
  have hkeys₀ : c₀.keys = [] := by rw [hc₀]; rfl
  have hsize : ∀ xs, ((normaliseAll lib c₀ xs).size : Int) = N := by
    intro xs
    rw [normaliseAll_size]
    exact hsize₀
  have hrec : ∀ ys : List Str, (normaliseAll lib c₀ ys).keys = (recency ys).take N.toNat := by
    intro ys
    rw [← hsizeNat]
    exact normaliseAll_keys_recency lib c₀ hwf₀.1 hkeys₀ ys
  have hfill : ∀ xs : List Str, xs.Nodup → (xs.length : Int) ≤ N →
      (normaliseAll lib c₀ xs).keys = xs.reverse ∧ evictions lib c₀ xs = [] := by
    intro xs hnd hlen
    have h := normaliseAll_fill lib c₀ xs hnd (by intro x _; rw [hkeys₀]; simp)
      (by rw [hkeys₀]; simp only [List.length_nil]; omega)
    rw [hkeys₀, List.append_nil] at h
    exact h
  have hfull : ∀ (ys : List Str) (x : Str),
      x ∉ (normaliseAll lib c₀ ys).keys →
      ((normaliseAll lib c₀ ys).keys.length : Int) = N →
      ∃ hne : (normaliseAll lib c₀ ys).keys ≠ [],
        evictedBy lib (normaliseAll lib c₀ ys) x = [(normaliseAll lib c₀ ys).keys.getLast hne]
          ∧ (normaliseDomain lib (normaliseAll lib c₀ ys) x).2.keys
              = x :: (normaliseAll lib c₀ ys).keys.dropLast := by
    intro ys x hx hlen
    have hwf := normaliseAll_WF lib c₀ ys hwf₀
    have hne : (normaliseAll lib c₀ ys).keys ≠ [] := by
      intro h
      rw [h] at hlen
      simp at hlen
      omega
    have hs := hsize ys
    have h := evictedBy_full lib (normaliseAll lib c₀ ys) x hwf.2.2 hx hne (by omega)
    exact ⟨hne, h.2, h.1⟩
  have hvictim : ∀ (ys : List Str) (x : Str),
      x ∉ (normaliseAll lib c₀ ys).keys →
      ((normaliseAll lib c₀ ys).keys.length : Int) = N →
      ∃ v, evictedBy lib (normaliseAll lib c₀ ys) x = [v]
        ∧ v ∈ ys
        ∧ v ∈ (normaliseAll lib c₀ ys).keys
        ∧ ∀ k ∈ (normaliseAll lib c₀ ys).keys, k ≠ v → lastUse ys v < lastUse ys k := by
    intro ys x hx hlen
    obtain ⟨hne, hev, _⟩ := hfull ys x hx hlen
    have hmem := List.getLast_mem hne
    have hsorted : (normaliseAll lib c₀ ys).keys.Pairwise
        (fun a b => lastUse ys b < lastUse ys a) := by
      rw [hrec ys]
      exact List.Pairwise.sublist (List.take_sublist _ _) (recency_sorted ys)
    have hsplit := List.dropLast_append_getLast hne
    refine ⟨(normaliseAll lib c₀ ys).keys.getLast hne, hev, ?_, hmem, ?_⟩
    · have hsub : ∀ k ∈ (normaliseAll lib c₀ ys).keys, k ∈ ys := by
        intro k hk
        rw [hrec ys] at hk
        exact (mem_recency ys k).mp (List.mem_of_mem_take hk)
      exact hsub _ hmem
    · intro k hk hkv
      have hsorted' : ((normaliseAll lib c₀ ys).keys.dropLast
          ++ [(normaliseAll lib c₀ ys).keys.getLast hne]).Pairwise
          (fun a b => lastUse ys b < lastUse ys a) := by
        rw [hsplit]
        exact hsorted
      have hk2 : k ∈ (normaliseAll lib c₀ ys).keys.dropLast
          ++ [(normaliseAll lib c₀ ys).keys.getLast hne] := by
        rw [hsplit]
        exact hk
      rcases List.mem_append.mp hk2 with hk' | hk'
      · exact (List.pairwise_append.mp hsorted').2.2 k hk' _ (List.mem_singleton_self _)
      · exact absurd (List.mem_singleton.mp hk') hkv
  refine ⟨?_, ?_, hfull, hrec, hvictim⟩
  · intro xs
    have hwf := normaliseAll_WF lib c₀ xs hwf₀
    have hs := hsize xs
    exact ⟨by have := hwf.2.1; omega, hwf.2.2⟩
  · intro xs hnd hlen
    constructor
    · intro k hk
      exact hfill (xs.take k) (List.Nodup.sublist (List.take_sublist k xs) hnd)
        (by rw [List.length_take]; omega)
    · have hne : xs ≠ [] := by
        intro h
        rw [h] at hlen
        simp at hlen
        omega
      have hsplit := List.dropLast_append_getLast hne
      have hnd' : (xs.dropLast ++ [xs.getLast hne]).Nodup := by rw [hsplit]; exact hnd
      have hndp := List.nodup_append.mp hnd'
      have hlenp : (xs.dropLast.length : Int) = N := by
        rw [List.length_dropLast]
        omega
      obtain ⟨hkeysp, hevp⟩ := hfill xs.dropLast hndp.1 (by omega)
      have hlast : xs.getLast hne ∉ (normaliseAll lib c₀ xs.dropLast).keys := by
        rw [hkeysp, List.mem_reverse]
        intro hmem
        exact hndp.2.2 hmem (List.mem_singleton_self _)
      obtain ⟨hne', hev, hkeys⟩ := hfull xs.dropLast (xs.getLast hne) hlast
        (by rw [hkeysp, List.length_reverse]; exact hlenp)
      have hpne : xs.dropLast ≠ [] := by
        intro h
        rw [h] at hlenp
        simp at hlenp
        omega
      obtain ⟨x₀, mid, hmid⟩ := List.exists_cons_of_ne_nil hpne
      refine ⟨x₀, mid ++ [xs.getLast hne], ?_, ?_, ?_⟩
      · rw [← List.cons_append, ← hmid, hsplit]
      · have happ := evictions_append lib c₀ xs.dropLast [xs.getLast hne]
        rw [hsplit] at happ
        rw [happ, hevp, List.nil_append]
        simp only [evictions, List.append_nil]
        have hgl : (normaliseAll lib c₀ xs.dropLast).keys.getLast hne' = x₀ := by
          have aux : ∀ (l : List Str) (h : l ≠ []), l = (x₀ :: mid).reverse →
              l.getLast h = x₀ := by
            intro l h hl
            subst hl
            simp
          exact aux _ hne' (by rw [hkeysp, hmid])
        rw [hev, hgl]
      · have happ := normaliseAll_append lib c₀ xs.dropLast [xs.getLast hne]
        rw [hsplit] at happ
        rw [happ]
        simp only [normaliseAll]
        rw [hkeys, hkeysp, hmid]
        simp

/-- Witness for C5. The test harness: a cache of capacity 5 receives six distinct
raw domains and `google.com`, the first, is the one evicted. And a cache of
capacity 2 receiving `google.com`, `apple.com`, `google.com`, `youtube.com`: the
second call on `google.com` is a hit that makes it the most recently used, so the
miss on `youtube.com` evicts `apple.com` and leaves `youtube.com`, `google.com`. -/
theorem cache_bound_witness :
    New 5 = some { size := 5, entries := [] }
    ∧ (∃ x₀ rest, testDomains = x₀ :: rest
        ∧ evictions testLib { size := 5, entries := [] } testDomains = [x₀]
        ∧ (normaliseAll testLib { size := 5, entries := [] } testDomains).keys = rest.reverse)
    ∧ New 2 = some { size := 2, entries := [] }
    ∧ (normaliseAll testLib { size := 2, entries := [] } testCalls).keys
        = (recency testCalls).take 2
    ∧ recency testCalls = ["youtube.com".toList, "google.com".toList, "apple.com".toList]
    ∧ evictions testLib { size := 2, entries := [] } testCalls = ["apple.com".toList]
    ∧ lastUse testCalls.dropLast "apple.com".toList = 2
    ∧ lastUse testCalls.dropLast "google.com".toList = 3 :=
  ⟨rfl,
    ((cache_bound testLib 5 { size := 5, entries := [] } rfl).2.1 testDomains
      (by decide) (by decide)).2,
    rfl,
    (cache_bound testLib 2 { size := 2, entries := [] } rfl).2.2.2.1 testCalls,
    by decide, by decide, by decide, by decide⟩

/-- C6. The normalized domain is a function of the raw domain alone: in every
cache state reached from a fresh cache of capacity `N >= 1` by any sequence of
`normaliseDomain` calls (evictions included), `normaliseDomain x` returns what it
returns on the fresh cache; the first call on the fresh cache is a miss, the call
right after it is a hit, and calling twice in a row gives the same result. -/
theorem normaliseDomain_pure (lib : Lib) (N : Int) (c₀ : Cache) (h₀ : New N = some c₀)
    (xs : List Str) (x : Str) :
    (normaliseDomain lib (normaliseAll lib c₀ xs) x).1 = (normaliseDomain lib c₀ x).1
    ∧ (c₀.Get x).1 = none
    ∧ ((normaliseDomain lib c₀ x).2.Get x).1 = some (normaliseDomain lib c₀ x).1
    ∧ (normaliseDomain lib (normaliseDomain lib c₀ x).2 x).1 = (normaliseDomain lib c₀ x).1
    ∧ (normaliseDomain lib (normaliseDomain lib (normaliseAll lib c₀ xs) x).2 x).1
        = (normaliseDomain lib (normaliseAll lib c₀ xs) x).1 := by
  have hwf₀ := New_WF h₀
  have hs₀ := New_Sound lib h₀
  have hs := normaliseAll_Sound lib c₀ xs hs₀
  refine ⟨?_, ?_, ?_, ?_, ?_⟩
  · rw [normaliseDomain_value lib _ x hs, normaliseDomain_value lib _ x hs₀]
  · obtain ⟨_, hc₀⟩ := New_eq_some h₀
    rw [hc₀]
    rfl
  · obtain ⟨tl, htl⟩ := normaliseDomain_front lib c₀ x hwf₀
    exact Get_front _ x _ tl htl
  · rw [normaliseDomain_value lib _ x (normaliseDomain_Sound lib c₀ x hs₀),
      normaliseDomain_value lib _ x hs₀]
  · rw [normaliseDomain_value lib _ x (normaliseDomain_Sound lib _ x hs),
      normaliseDomain_value lib _ x hs]

/-- Witness for C6: after the six raw domains of the test harness went through a
cache of capacity 5, `google.com` (evicted meanwhile) still normalises to
`google.com`. -/
theorem normaliseDomain_pure_witness :
    New 5 = some { size := 5, entries := [] }
    ∧ (normaliseDomain testLib (normaliseAll testLib { size := 5, entries := [] } testDomains)
        "google.com".toList).1 = "google.com".toList :=
  ⟨rfl, (normaliseDomain_pure testLib 5 { size := 5, entries := [] } rfl testDomains
    "google.com".toList).1.trans (by decide)⟩

/-- C7. Unparseable input: for every raw domain whose eTLD+1 cannot be derived,
`normaliseDomain` (a total function) returns the empty string, in every cache
state reached from a fresh cache; it leaves the negative result cached under the
raw domain, so that the next call with the same raw domain is a cache hit
returning the empty string. The empty name and every name with an empty label
are such raw domains, whatever the public suffix list. -/
theorem normaliseDomain_unparseable (lib : Lib) (N : Int) (c₀ : Cache) (h₀ : New N = some c₀)
    (xs : List Str) (x : Str) (hfail : EffectiveTLDPlusOne lib.rules x = none) :
    (normaliseDomain lib (normaliseAll lib c₀ xs) x).1 = []
    ∧ ((normaliseDomain lib (normaliseAll lib c₀ xs) x).2.Get x).1 = some []
    ∧ (normaliseDomain lib (normaliseDomain lib (normaliseAll lib c₀ xs) x).2 x).1 = []
    ∧ EffectiveTLDPlusOne lib.rules [] = none
    ∧ (∀ y : Str, [] ∈ splitLabels y → EffectiveTLDPlusOne lib.rules y = none) := by
  have hwf := normaliseAll_WF lib c₀ xs (New_WF h₀)
  have hs := normaliseAll_Sound lib c₀ xs (New_Sound lib h₀)
  have hval : missValue lib x = [] := by simp [missValue, hfail, ToLower]
  have h1 : (normaliseDomain lib (normaliseAll lib c₀ xs) x).1 = [] := by
    rw [normaliseDomain_value lib _ x hs, hval]
  have hlabel : ∀ y : Str, [] ∈ splitLabels y → EffectiveTLDPlusOne lib.rules y = none := by
    intro y hy
    unfold EffectiveTLDPlusOne
    have hany : (splitLabels y).any List.isEmpty = true :=
      List.any_eq_true.mpr ⟨[], hy, rfl⟩
    simp only [hany, if_true]
  refine ⟨h1, ?_, ?_, ?_, hlabel⟩
  · obtain ⟨tl, htl⟩ := normaliseDomain_front lib _ x hwf
    rw [h1] at htl
    exact Get_front _ x _ tl htl
  · rw [normaliseDomain_value lib _ x (normaliseDomain_Sound lib _ x hs), hval]
  · exact hlabel [] (by decide)

/-- Witness for C7: `localhost`, a bare public suffix, met after the six raw
domains of the test harness went through a cache of capacity 5. -/
theorem normaliseDomain_unparseable_witness :
    New 5 = some { size := 5, entries := [] }
    ∧ EffectiveTLDPlusOne testLib.rules "localhost".toList = none
    ∧ (normaliseDomain testLib (normaliseAll testLib { size := 5, entries := [] } testDomains)
        "localhost".toList).1 = []
    ∧ ((normaliseDomain testLib
          (normaliseAll testLib { size := 5, entries := [] } testDomains)
          "localhost".toList).2.Get "localhost".toList).1 = some [] :=
  ⟨rfl, by decide,
    (normaliseDomain_unparseable testLib 5 { size := 5, entries := [] } rfl testDomains
      "localhost".toList (by decide)).1,
    (normaliseDomain_unparseable testLib 5 { size := 5, entries := [] } rfl testDomains
      "localhost".toList (by decide)).2.1⟩

/-- C9 fails on the code. The public suffix is matched on the name as it was
received and the result is lower-cased only afterwards, so a name whose
multi-label public suffix is written in upper case loses its registrable label:
`subdomain.testingcom.CO.UK` gives `co.uk`, while its lower-case form gives
`testingcom.co.uk`. A name of the shape of the code comment,
`SubDoMain.DoMain.TLD`, does give `domain.tld`. -/
theorem normaliseDomain_case_of_suffix :
    (normaliseDomain testLib { size := 1000000, entries := [] }
        "subdomain.testingcom.CO.UK".toList).1 = "co.uk".toList
    ∧ ToLower testLib "subdomain.testingcom.CO.UK".toList
        = "subdomain.testingcom.co.uk".toList
    ∧ (normaliseDomain testLib { size := 1000000, entries := [] }
        (ToLower testLib "subdomain.testingcom.CO.UK".toList)).1 = "testingcom.co.uk".toList
    ∧ (normaliseDomain testLib { size := 1000000, entries := [] }
        "SubDoMain.DoMain.TLD".toList).1 = "domain.tld".toList := by
  decide

end DnsLogger
